import Mathlib

/-!
Verification of the brute-force set-packing checker from
`community/aqua/optimization/set_packing.ipynb`.

The notebook defines (cell 5):

  def brute_force():
      def bitfield(n, L):
          result = np.binary_repr(n, L)
          return [int(digit) for digit in result]
      L = len(list_of_subsets)
      max = 2**L
      max_v = -np.inf
      for i in range(max):
          cur = bitfield(i, L)
          cur_v = setpacking.check_disjoint(cur, list_of_subsets)
          if cur_v:
              if np.count_nonzero(cur) > max_v:
                  max_v = np.count_nonzero(cur)
      return max_v

`np.binary_repr(n, L)` (for `n ≥ 0`) produces the binary representation of
`n`, most-significant bit first, left-padded with zeros to width `L`; when
`n` needs more than `L` bits it returns the full (unpadded) representation
without raising; `np.binary_repr(0, 0)` returns the single digit "0".
`-np.inf` is modelled by `⊥ : WithBot ℕ`, which compares below every
integer exactly as `-inf` does in the code's `>` test.

`setpacking.check_disjoint` lives in the external `qiskit_aqua` library,
not in this repository; it is modelled from the spec below.
-/

/-- LSB-first binary digits of `n` (empty for `n = 0`).  The first argument
is fuel, always instantiated with `n` itself, so that the recursion is
structural and computations reduce in the kernel. -/
def bitsAux : ℕ → ℕ → List ℕ
  | 0, _ => []
  | _ + 1, 0 => []
  | fuel + 1, n + 1 => (n + 1) % 2 :: bitsAux fuel ((n + 1) / 2)

/-- LSB-first binary digits of `n`; `[]` for `n = 0`. -/
def bitsLE (n : ℕ) : List ℕ := bitsAux n n

/-- The digit string produced by `np.binary_repr(n)` (no width), as a list
of digits, most-significant bit first.  `np.binary_repr(0)` is "0". -/
def natBinary (n : ℕ) : List ℕ :=
  if n = 0 then [0] else (bitsLE n).reverse

/-- `bitfield(n, L)` from the notebook: `np.binary_repr(n, L)` turned into
a list of 0/1 digits.  `np.binary_repr` left-pads the natural binary
representation with zeros up to width `L` (and pads not at all when the
representation is already at least `L` digits long). -/
def bitfield (n L : ℕ) : List ℕ :=
  List.replicate (L - (natBinary n).length) 0 ++ natBinary n

/-- Value of a most-significant-bit-first digit string. -/
def fromBitsMSB (l : List ℕ) : ℕ := l.foldl (fun a d => 2 * a + d) 0

/-- `np.count_nonzero` on a list of integers. -/
def countNonzero (l : List ℕ) : ℕ := l.countP (fun d => d ≠ 0)

/-- Modelled from the spec: emptiness of the intersection of two subsets
(each given, as in the input file, as a list of integers). -/
def disjointB (A B : List ℕ) : Bool := A.all (fun x => !(B.contains x))

/-- Modelled from the spec: "for every pair of subsets both marked
selected, their intersection is empty". -/
def pairwiseDisjoint : List (List ℕ) → Bool
  | [] => true
  | A :: rest => rest.all (fun B => disjointB A B) && pairwiseDisjoint rest

/-- Modelled from the spec: the subsets marked `1` by the selection vector,
in order ("digit at position i indicates whether subset i is chosen"). -/
def selectedSubsets (sol : List ℕ) (subsets : List (List ℕ)) : List (List ℕ) :=
  ((sol.zip subsets).filter (fun p => p.1 == 1)).map Prod.snd

/-- Modelled from the spec: `setpacking.check_disjoint(sol, list_of_subsets)`
from the external `qiskit_aqua` library, missing from this repository —
"returns true iff, for every pair of subsets both marked selected, their
intersection is empty". -/
def check_disjoint (sol : List ℕ) (subsets : List (List ℕ)) : Bool :=
  pairwiseDisjoint (selectedSubsets sol subsets)

/-- One iteration of the notebook's loop: update `max_v` from candidate
`i`, with the check function `cd` as a parameter (the notebook calls
`setpacking.check_disjoint`). -/
def bfStep (cd : List ℕ → List (List ℕ) → Bool) (subsets : List (List ℕ))
    (maxv : WithBot ℕ) (i : ℕ) : WithBot ℕ :=
  let cur := bitfield i subsets.length
  if cd cur subsets then
    if ((countNonzero cur : ℕ) : WithBot ℕ) > maxv then ((countNonzero cur : ℕ) : WithBot ℕ)
    else maxv
  else maxv

/-- The notebook's `brute_force` loop with the check function abstracted:
`max_v` starts at `-np.inf` (here `⊥`) and the loop ranges over
`i ∈ range(2 ** L)`. -/
def bruteForceWith (cd : List ℕ → List (List ℕ) → Bool)
    (subsets : List (List ℕ)) : WithBot ℕ :=
  (List.range (2 ^ subsets.length)).foldl (bfStep cd subsets) ⊥

/-- `brute_force` from the notebook, reading the collection it is run on as
its argument; the check is the library's `check_disjoint`. -/
def brute_force (subsets : List (List ℕ)) : WithBot ℕ :=
  bruteForceWith check_disjoint subsets

/-! ### Basic facts about the binary-digit functions -/

theorem bitsAux_congr : ∀ f₁ f₂ n, n ≤ f₁ → n ≤ f₂ → bitsAux f₁ n = bitsAux f₂ n := by
  intro f₁
  induction f₁ with
  | zero =>
    intro f₂ n h₁ _
    interval_cases n
    cases f₂ <;> rfl
  | succ f ih =>
    intro f₂ n h₁ h₂
    match n, f₂ with
    | 0, 0 => rfl
    | 0, g + 1 => rfl
    | m + 1, g + 1 =>
      show (m + 1) % 2 :: bitsAux f ((m + 1) / 2) = (m + 1) % 2 :: bitsAux g ((m + 1) / 2)
      rw [ih g ((m + 1) / 2) (by omega) (by omega)]

theorem bitsLE_zero : bitsLE 0 = [] := rfl

theorem bitsLE_succ (n : ℕ) : bitsLE (n + 1) = (n + 1) % 2 :: bitsLE ((n + 1) / 2) := by
  show bitsAux (n + 1) (n + 1) = (n + 1) % 2 :: bitsAux ((n + 1) / 2) ((n + 1) / 2)
  show (n + 1) % 2 :: bitsAux n ((n + 1) / 2) = _
  rw [bitsAux_congr n ((n + 1) / 2) ((n + 1) / 2)
    (Nat.lt_succ_iff.mp (Nat.div_lt_self (Nat.succ_pos n) one_lt_two)) le_rfl]

theorem bitsLE_length_le : ∀ n L, n < 2 ^ L → (bitsLE n).length ≤ L := by
  intro n
  induction n using Nat.strong_induction_on with
  | _ n ih =>
    match n with
    | 0 => intro L _; simp [bitsLE_zero]
    | m + 1 =>
      intro L hL
      match L with
      | 0 => omega
      | K + 1 =>
        rw [bitsLE_succ]
        have hq : (m + 1) / 2 < 2 ^ K := by
          rw [pow_succ] at hL; omega
        have := ih ((m + 1) / 2) (Nat.div_lt_self (Nat.succ_pos m) one_lt_two) K hq
        simpa using Nat.succ_le_succ this

theorem bitsLE_length_gt : ∀ n L, 2 ^ L ≤ n → L < (bitsLE n).length := by
  intro n
  induction n using Nat.strong_induction_on with
  | _ n ih =>
    match n with
    | 0 => intro L hL; exact absurd hL (not_le.mpr (pow_pos (by norm_num) L))
    | m + 1 =>
      intro L hL
      match L with
      | 0 => rw [bitsLE_succ]; simp
      | K + 1 =>
        rw [bitsLE_succ]
        have hq : 2 ^ K ≤ (m + 1) / 2 := by
          rw [pow_succ] at hL; omega
        have := ih ((m + 1) / 2) (Nat.div_lt_self (Nat.succ_pos m) one_lt_two) K hq
        simpa using Nat.succ_lt_succ this

theorem bitsLE_mem : ∀ n d, d ∈ bitsLE n → d = 0 ∨ d = 1 := by
  intro n
  induction n using Nat.strong_induction_on with
  | _ n ih =>
    match n with
    | 0 => intro d hd; simp [bitsLE_zero] at hd
    | m + 1 =>
      intro d hd
      rw [bitsLE_succ] at hd
      rcases List.mem_cons.mp hd with h | h
      · subst h; exact Nat.mod_two_eq_zero_or_one (m + 1)
      · exact ih ((m + 1) / 2) (Nat.div_lt_self (Nat.succ_pos m) one_lt_two) d h

theorem foldl_reverse_bitsLE :
    ∀ n a, List.foldl (fun a d => 2 * a + d) a (bitsLE n).reverse =
      a * 2 ^ (bitsLE n).length + n := by
  intro n
  induction n using Nat.strong_induction_on with
  | _ n ih =>
    match n with
    | 0 => intro a; simp [bitsLE_zero]
    | m + 1 =>
      intro a
      rw [bitsLE_succ, List.reverse_cons, List.foldl_append,
        ih ((m + 1) / 2) (Nat.div_lt_self (Nat.succ_pos m) one_lt_two) a]
      have hdm : 2 * ((m + 1) / 2) + (m + 1) % 2 = m + 1 := Nat.div_add_mod (m + 1) 2
      simp only [List.foldl_cons, List.foldl_nil, List.length_cons, pow_succ]
      ring_nf
      omega

theorem natBinary_length_pos (n : ℕ) : 1 ≤ (natBinary n).length := by
  by_cases h : n = 0
  · subst h; simp [natBinary]
  · match n, h with
    | m + 1, _ =>
      simp only [natBinary, if_neg (Nat.succ_ne_zero m), List.length_reverse, bitsLE_succ]
      simp

theorem natBinary_length_le (n L : ℕ) (hL : 1 ≤ L) (hn : n < 2 ^ L) :
    (natBinary n).length ≤ L := by
  by_cases h : n = 0
  · subst h; simpa [natBinary] using hL
  · simp only [natBinary, if_neg h, List.length_reverse]
    exact bitsLE_length_le n L hn

theorem fromBitsMSB_natBinary (n : ℕ) : fromBitsMSB (natBinary n) = n := by
  by_cases h : n = 0
  · subst h; rfl
  · simp only [natBinary, if_neg h, fromBitsMSB]
    simpa using foldl_reverse_bitsLE n 0

theorem foldl_replicate_zero (f : ℕ → ℕ → ℕ) (hf : f 0 0 = 0) :
    ∀ k, List.foldl f 0 (List.replicate k 0) = 0 := by
  intro k
  induction k with
  | zero => rfl
  | succ k ih => rw [List.replicate_succ, List.foldl_cons, hf]; exact ih

theorem bitfield_value (n L : ℕ) : fromBitsMSB (bitfield n L) = n := by
  unfold bitfield fromBitsMSB
  rw [List.foldl_append]
  rw [show List.foldl (fun a d => 2 * a + d) 0
    (List.replicate (L - (natBinary n).length) 0) = 0 from
    foldl_replicate_zero _ (by norm_num) _]
  exact fromBitsMSB_natBinary n

theorem bitfield_length (n L : ℕ) (hL : 1 ≤ L) (hn : n < 2 ^ L) :
    (bitfield n L).length = L := by
  unfold bitfield
  rw [List.length_append, List.length_replicate]
  have := natBinary_length_le n L hL hn
  omega

theorem bitfield_mem (n L : ℕ) : ∀ d ∈ bitfield n L, d = 0 ∨ d = 1 := by
  intro d hd
  rcases List.mem_append.mp hd with h | h
  · exact Or.inl (List.eq_of_mem_replicate h)
  · by_cases hz : n = 0
    · subst hz; simp [natBinary] at h; omega
    · simp only [natBinary, if_neg hz, List.mem_reverse] at h
      exact bitsLE_mem n d h

theorem bitfield_length_gt (n L : ℕ) (hn : 2 ^ L ≤ n) : L < (bitfield n L).length := by
  have hz : n ≠ 0 := (lt_of_lt_of_le (pow_pos (by norm_num) L) hn).ne'
  unfold bitfield
  rw [List.length_append, List.length_replicate]
  simp only [natBinary, if_neg hz, List.length_reverse]
  have := bitsLE_length_gt n L hn
  omega

theorem bitfield_zero_eq (L : ℕ) (hL : 1 ≤ L) : bitfield 0 L = List.replicate L 0 := by
  have h0 : natBinary 0 = [0] := rfl
  unfold bitfield
  rw [h0]
  match L, hL with
  | K + 1, _ =>
    rw [List.replicate_succ' K 0]
    simp

theorem natBinary_succ_div (n : ℕ) (hn : 1 ≤ n / 2) :
    natBinary n = natBinary (n / 2) ++ [n % 2] := by
  have hnz : n ≠ 0 := by omega
  have hqz : n / 2 ≠ 0 := by omega
  simp only [natBinary, if_neg hnz, if_neg hqz]
  match n, hnz with
  | m + 1, _ =>
    rw [bitsLE_succ]
    simp

theorem bitfield_step (n L : ℕ) (hL : 1 ≤ L) :
    bitfield n (L + 1) = bitfield (n / 2) L ++ [n % 2] := by
  by_cases hq : n / 2 = 0
  · -- n = 0 or n = 1: the left side is L+1 digits of padding-plus-one-digit
    have hn : n = 0 ∨ n = 1 := by omega
    have hz : bitfield 0 L ++ [n % 2] = List.replicate L 0 ++ [n % 2] := by
      rw [bitfield_zero_eq L hL]
    rcases hn with h | h
    · subst h
      rw [show (0 : ℕ) / 2 = 0 from rfl, hz, show (0 : ℕ) % 2 = 0 from rfl,
        ← List.replicate_succ' L 0, bitfield_zero_eq (L + 1) (by omega)]
    · subst h
      rw [show (1 : ℕ) / 2 = 0 from rfl, hz, show (1 : ℕ) % 2 = 1 from rfl]
      have h1 : natBinary 1 = [1] := rfl
      unfold bitfield
      rw [h1]
      simp [List.replicate]
  · -- n/2 ≥ 1: peel the last digit off the unpadded representation
    have hrec := natBinary_succ_div n (by omega)
    unfold bitfield
    rw [hrec, List.length_append, List.length_singleton]
    rw [show L + 1 - ((natBinary (n / 2)).length + 1) = L - (natBinary (n / 2)).length by omega]
    rw [List.append_assoc]

theorem fromBitsMSB_append_singleton (w : List ℕ) (b : ℕ) :
    fromBitsMSB (w ++ [b]) = 2 * fromBitsMSB w + b := by
  unfold fromBitsMSB
  rw [List.foldl_append]
  rfl

theorem bitfield_roundtrip :
    ∀ v : List ℕ, 1 ≤ v.length → (∀ d ∈ v, d = 0 ∨ d = 1) →
      fromBitsMSB v < 2 ^ v.length ∧ bitfield (fromBitsMSB v) v.length = v := by
  intro v
  induction v using List.reverseRecOn with
  | nil => intro h _; simp at h
  | append_singleton w b ih =>
    intro _ hbits
    have hb : b = 0 ∨ b = 1 := hbits b (by simp)
    match w with
    | [] =>
      rcases hb with h | h <;> subst h <;> exact ⟨by decide, by decide⟩
    | c :: w' =>
      have hw : 1 ≤ (c :: w').length := by simp
      have hwbits : ∀ d ∈ c :: w', d = 0 ∨ d = 1 := fun d hd =>
        hbits d (by simp at hd ⊢; tauto)
      obtain ⟨hlt, heq⟩ := ih hw hwbits
      rw [fromBitsMSB_append_singleton]
      constructor
      · rw [List.length_append, List.length_singleton, pow_succ]
        omega
      · have hdiv : (2 * fromBitsMSB (c :: w') + b) / 2 = fromBitsMSB (c :: w') := by omega
        have hmod : (2 * fromBitsMSB (c :: w') + b) % 2 = b := by omega
        rw [List.length_append, List.length_singleton,
          bitfield_step _ _ hw, hdiv, hmod, heq]

/-! ### The selection of subsets and the disjointness check -/

theorem selectedSubsets_nil_right (v : List ℕ) : selectedSubsets v [] = [] := by
  simp [selectedSubsets]

theorem selectedSubsets_nil_left (S : List (List ℕ)) : selectedSubsets [] S = [] := rfl

theorem selectedSubsets_cons (d : ℕ) (v : List ℕ) (A : List ℕ) (S : List (List ℕ)) :
    selectedSubsets (d :: v) (A :: S) =
      if d = 1 then A :: selectedSubsets v S else selectedSubsets v S := by
  simp only [selectedSubsets, List.zip_cons_cons, List.filter_cons]
  by_cases h : d = 1
  · simp [h]
  · simp [h]

theorem selectedSubsets_sublist : ∀ (v : List ℕ) (S : List (List ℕ)),
    List.Sublist (selectedSubsets v S) S := by
  intro v
  induction v with
  | nil => intro S; rw [selectedSubsets_nil_left]; exact List.nil_sublist S
  | cons d v ih =>
    intro S
    match S with
    | [] => rw [selectedSubsets_nil_right]
    | A :: S' =>
      rw [selectedSubsets_cons]
      by_cases h : d = 1
      · rw [if_pos h]; exact List.Sublist.cons₂ A (ih S')
      · rw [if_neg h]; exact List.Sublist.cons A (ih S')

theorem selectedSubsets_length : ∀ (v : List ℕ) (S : List (List ℕ)),
    v.length = S.length → (∀ d ∈ v, d = 0 ∨ d = 1) →
    (selectedSubsets v S).length = countNonzero v := by
  intro v
  induction v with
  | nil => intro S _ _; rw [selectedSubsets_nil_left]; rfl
  | cons d v ih =>
    intro S hlen hbits
    match S with
    | [] => simp at hlen
    | A :: S' =>
      have hlen' : v.length = S'.length := by simpa using hlen
      have hbits' : ∀ x ∈ v, x = 0 ∨ x = 1 := fun x hx => hbits x (by simp [hx])
      rw [selectedSubsets_cons]
      have hd : d = 0 ∨ d = 1 := hbits d (by simp)
      rcases hd with h | h
      · subst h
        rw [if_neg (by norm_num)]
        simp only [countNonzero, List.countP_cons]
        rw [if_neg (by norm_num)]
        exact ih S' hlen' hbits'
      · subst h
        rw [if_pos rfl]
        simp only [countNonzero, List.countP_cons]
        rw [if_pos (by norm_num), List.length_cons]
        rw [ih S' hlen' hbits']
        rfl

theorem selectedSubsets_surj : ∀ {t S : List (List ℕ)}, List.Sublist t S →
    ∃ v : List ℕ, v.length = S.length ∧ (∀ d ∈ v, d = 0 ∨ d = 1) ∧
      selectedSubsets v S = t := by
  intro t S h
  induction h with
  | slnil => exact ⟨[], rfl, by simp, rfl⟩
  | cons A h ih =>
    obtain ⟨v, hlen, hbits, hsel⟩ := ih
    refine ⟨0 :: v, by simp [hlen], ?_, ?_⟩
    · intro d hd
      rcases List.mem_cons.mp hd with h' | h'
      · exact Or.inl h'
      · exact hbits d h'
    · rw [selectedSubsets_cons, if_neg (by norm_num), hsel]
  | cons₂ A h ih =>
    obtain ⟨v, hlen, hbits, hsel⟩ := ih
    refine ⟨1 :: v, by simp [hlen], ?_, ?_⟩
    · intro d hd
      rcases List.mem_cons.mp hd with h' | h'
      · exact Or.inr h'
      · exact hbits d h'
    · rw [selectedSubsets_cons, if_pos rfl, hsel]

theorem selectedSubsets_replicate_zero : ∀ (k : ℕ) (S : List (List ℕ)),
    selectedSubsets (List.replicate k 0) S = [] := by
  intro k
  induction k with
  | zero => intro S; rfl
  | succ k ih =>
    intro S
    match S with
    | [] => rw [selectedSubsets_nil_right]
    | A :: S' =>
      rw [List.replicate_succ, selectedSubsets_cons, if_neg (by norm_num)]
      exact ih S'

theorem disjointB_true_iff (A B : List ℕ) :
    disjointB A B = true ↔ ∀ x ∈ A, ¬ x ∈ B := by
  simp [disjointB]

theorem disjointB_comm (A B : List ℕ) : disjointB A B = disjointB B A := by
  have h : disjointB A B = true ↔ disjointB B A = true := by
    rw [disjointB_true_iff, disjointB_true_iff]
    constructor
    · intro h x hxB hxA; exact h x hxA hxB
    · intro h x hxA hxB; exact h x hxB hxA
  cases hab : disjointB A B <;> cases hba : disjointB B A <;> simp_all

theorem pairwiseDisjoint_iff (l : List (List ℕ)) :
    pairwiseDisjoint l = true ↔ l.Pairwise (fun A B => disjointB A B = true) := by
  induction l with
  | nil => simp [pairwiseDisjoint]
  | cons A rest ih =>
    simp only [pairwiseDisjoint, Bool.and_eq_true, List.all_eq_true, List.pairwise_cons, ih]

theorem pairwiseDisjoint_perm {l l' : List (List ℕ)} (h : List.Perm l l') :
    pairwiseDisjoint l = pairwiseDisjoint l' := by
  have hsymm : Symmetric (fun A B : List ℕ => disjointB A B = true) := by
    intro A B hAB
    rw [← disjointB_comm]
    exact hAB
  have hiff : pairwiseDisjoint l = true ↔ pairwiseDisjoint l' = true := by
    rw [pairwiseDisjoint_iff, pairwiseDisjoint_iff]
    exact List.Perm.pairwise_iff (fun hab => hsymm hab) h
  cases h1 : pairwiseDisjoint l <;> cases h2 : pairwiseDisjoint l' <;> simp_all

/-! ### Characterizing the loop as a maximum -/

/-- Maximum of `f` over a list, with `⊥` for the empty list. -/
def maxOver {α : Type} (l : List α) (f : α → WithBot ℕ) : WithBot ℕ :=
  (l.map f).foldr max ⊥

/-- The contribution of candidate `n` to the loop: the number of selected
subsets if the check accepts `bitfield n L`, and `⊥` otherwise. -/
def acceptWith (cd : List ℕ → List (List ℕ) → Bool) (S : List (List ℕ)) (n : ℕ) : WithBot ℕ :=
  if cd (bitfield n S.length) S then ((countNonzero (bitfield n S.length) : ℕ) : WithBot ℕ)
  else ⊥

theorem maxOver_nil {α : Type} (f : α → WithBot ℕ) : maxOver [] f = ⊥ := rfl

theorem maxOver_cons {α : Type} (a : α) (l : List α) (f : α → WithBot ℕ) :
    maxOver (a :: l) f = max (f a) (maxOver l f) := rfl

theorem le_maxOver {α : Type} {l : List α} {a : α} (f : α → WithBot ℕ) (ha : a ∈ l) :
    f a ≤ maxOver l f := by
  induction l with
  | nil => simp at ha
  | cons b l ih =>
    rw [maxOver_cons]
    rcases List.mem_cons.mp ha with h | h
    · subst h; exact le_max_left _ _
    · exact le_trans (ih h) (le_max_right _ _)

theorem maxOver_le {α : Type} {l : List α} {x : WithBot ℕ} (f : α → WithBot ℕ)
    (h : ∀ a ∈ l, f a ≤ x) : maxOver l f ≤ x := by
  induction l with
  | nil => exact bot_le
  | cons b l ih =>
    rw [maxOver_cons]
    exact max_le (h b (by simp)) (ih (fun a ha => h a (by simp [ha])))

theorem bfStep_eq_max (cd : List ℕ → List (List ℕ) → Bool) (S : List (List ℕ))
    (acc : WithBot ℕ) (i : ℕ) : bfStep cd S acc i = max acc (acceptWith cd S i) := by
  unfold bfStep acceptWith
  by_cases h : cd (bitfield i S.length) S
  · rw [if_pos h, if_pos h]
    rcases le_or_lt ((countNonzero (bitfield i S.length) : ℕ) : WithBot ℕ) acc with hle | hlt
    · rw [if_neg (not_lt.mpr hle), max_eq_left hle]
    · rw [if_pos hlt, max_eq_right (le_of_lt hlt)]
  · rw [if_neg h, if_neg h, max_eq_left bot_le]

theorem foldl_bfStep_eq (cd : List ℕ → List (List ℕ) → Bool) (S : List (List ℕ)) :
    ∀ (l : List ℕ) (acc : WithBot ℕ),
      l.foldl (bfStep cd S) acc = max acc (maxOver l (acceptWith cd S)) := by
  intro l
  induction l with
  | nil => intro acc; rw [List.foldl_nil, maxOver_nil, max_eq_left bot_le]
  | cons i l ih =>
    intro acc
    rw [List.foldl_cons, ih, bfStep_eq_max, maxOver_cons, max_assoc]

theorem bruteForceWith_eq_maxOver (cd : List ℕ → List (List ℕ) → Bool) (S : List (List ℕ)) :
    bruteForceWith cd S = maxOver (List.range (2 ^ S.length)) (acceptWith cd S) := by
  unfold bruteForceWith
  rw [foldl_bfStep_eq, max_eq_right bot_le]

/-! ### The semantic value: best packing over sublists -/

/-- The maximum size of a pairwise-disjoint sub-collection of `S`. -/
def packMax (S : List (List ℕ)) : WithBot ℕ :=
  maxOver S.sublists (fun t => if pairwiseDisjoint t then ((t.length : ℕ) : WithBot ℕ) else ⊥)

theorem brute_force_eq_packMax (S : List (List ℕ)) (hS : 1 ≤ S.length) :
    brute_force S = packMax S := by
  apply le_antisymm
  · -- every accepted candidate realizes some disjoint sublist
    rw [brute_force, bruteForceWith_eq_maxOver]
    apply maxOver_le
    intro n hn
    have hn' : n < 2 ^ S.length := List.mem_range.mp hn
    unfold acceptWith
    by_cases hc : check_disjoint (bitfield n S.length) S
    · rw [if_pos hc]
      set v := bitfield n S.length with hv
      have hlen : v.length = S.length := bitfield_length n S.length hS hn'
      have hbits : ∀ d ∈ v, d = 0 ∨ d = 1 := bitfield_mem n S.length
      have hsub : List.Sublist (selectedSubsets v S) S := selectedSubsets_sublist v S
      have hcnt : (selectedSubsets v S).length = countNonzero v :=
        selectedSubsets_length v S hlen hbits
      have hc' : pairwiseDisjoint (selectedSubsets v S) = true := hc
      have hle := le_maxOver
        (fun t => if pairwiseDisjoint t then ((t.length : ℕ) : WithBot ℕ) else ⊥)
        (List.mem_sublists.mpr hsub)
      rw [← hcnt]
      simpa [hc', packMax] using hle
    · rw [if_neg hc]; exact bot_le
  · -- every disjoint sublist is realized by some candidate
    rw [brute_force, bruteForceWith_eq_maxOver]
    apply maxOver_le
    intro t ht
    have hsub : List.Sublist t S := List.mem_sublists.mp ht
    by_cases hd : pairwiseDisjoint t
    · rw [if_pos hd]
      obtain ⟨v, hlen, hbits, hsel⟩ := selectedSubsets_surj hsub
      have hv1 : 1 ≤ v.length := by omega
      obtain ⟨hlt, hbf⟩ := bitfield_roundtrip v hv1 hbits
      have hmem : fromBitsMSB v ∈ List.range (2 ^ S.length) := by
        rw [List.mem_range, ← hlen]
        exact hlt
      have := le_maxOver (acceptWith check_disjoint S) hmem
      unfold acceptWith at this
      rw [hlen] at hbf
      rw [hbf] at this
      rw [show check_disjoint v S = pairwiseDisjoint t by rw [check_disjoint, hsel], if_pos hd,
        ← selectedSubsets_length v S hlen hbits, hsel] at this
      exact this
    · rw [if_neg hd]; exact bot_le

theorem packMax_le_of_perm {S S' : List (List ℕ)} (h : List.Perm S S') :
    packMax S ≤ packMax S' := by
  apply maxOver_le
  intro t ht
  by_cases hd : pairwiseDisjoint t
  · rw [if_pos hd]
    have hsub : List.Subperm t S' := (List.Perm.subperm_left h).mp
      (List.Sublist.subperm (List.mem_sublists.mp ht))
    obtain ⟨t₂, hperm, hsub₂⟩ := hsub
    have hd₂ : pairwiseDisjoint t₂ = true := by
      rw [pairwiseDisjoint_perm hperm]; exact hd
    have hlen : t₂.length = t.length := List.Perm.length_eq hperm
    have := le_maxOver
      (fun u => if pairwiseDisjoint u then ((u.length : ℕ) : WithBot ℕ) else ⊥)
      (List.mem_sublists.mpr hsub₂)
    simpa [hd₂, hlen, packMax] using this
  · rw [if_neg hd]; exact bot_le

theorem packMax_perm {S S' : List (List ℕ)} (h : List.Perm S S') :
    packMax S = packMax S' :=
  le_antisymm (packMax_le_of_perm h) (packMax_le_of_perm h.symm)

theorem packMax_append (S l : List (List ℕ)) : packMax S ≤ packMax (S ++ l) := by
  apply maxOver_le
  intro t ht
  by_cases hd : pairwiseDisjoint t
  · rw [if_pos hd]
    have hsub : List.Sublist t (S ++ l) :=
      (List.mem_sublists.mp ht).trans (List.sublist_append_left S l)
    have := le_maxOver
      (fun u => if pairwiseDisjoint u then ((u.length : ℕ) : WithBot ℕ) else ⊥)
      (List.mem_sublists.mpr hsub)
    simpa [hd, packMax] using this
  · rw [if_neg hd]; exact bot_le

theorem check_disjoint_replicate_zero (k : ℕ) (S : List (List ℕ)) :
    check_disjoint (List.replicate k 0) S = true := by
  rw [check_disjoint, selectedSubsets_replicate_zero]
  rfl

theorem countNonzero_replicate_zero (k : ℕ) : countNonzero (List.replicate k 0) = 0 := by
  induction k with
  | zero => rfl
  | succ k ih =>
    rw [List.replicate_succ]
    simp only [countNonzero, List.countP_cons] at ih ⊢
    rw [if_neg (by norm_num)]
    exact ih

theorem zero_le_brute_force (S : List (List ℕ)) (hS : 1 ≤ S.length) :
    ((0 : ℕ) : WithBot ℕ) ≤ brute_force S := by
  rw [brute_force, bruteForceWith_eq_maxOver]
  have hmem : 0 ∈ List.range (2 ^ S.length) :=
    List.mem_range.mpr (pow_pos (by norm_num) S.length)
  have := le_maxOver (acceptWith check_disjoint S) hmem
  unfold acceptWith at this
  rw [bitfield_zero_eq S.length hS, check_disjoint_replicate_zero, if_pos rfl,
    countNonzero_replicate_zero] at this
  exact this

/-! ### The notebook's global state -/

/-- The notebook state: the module-level `list_of_subsets` shared across
cells.  `brute_force` reads it (to take `L` and inside each
`check_disjoint` call) and never assigns to it; the state is threaded
explicitly through every loop iteration. -/
def bruteForceGlobal (st : List (List ℕ)) : List (List ℕ) × WithBot ℕ :=
  (List.range (2 ^ st.length)).foldl
    (fun p i => (p.1, bfStep check_disjoint p.1 p.2 i)) (st, ⊥)

theorem foldl_global_eq (l : List ℕ) :
    ∀ (st : List (List ℕ)) (acc : WithBot ℕ),
      l.foldl (fun p i => (p.1, bfStep check_disjoint p.1 p.2 i)) (st, acc) =
        (st, l.foldl (bfStep check_disjoint st) acc) := by
  induction l with
  | nil => intro st acc; rfl
  | cons i l ih =>
    intro st acc
    rw [List.foldl_cons, List.foldl_cons]
    exact ih st (bfStep check_disjoint st acc i)

theorem bruteForceGlobal_eq (st : List (List ℕ)) :
    bruteForceGlobal st = (st, brute_force st) := by
  rw [bruteForceGlobal, foldl_global_eq]
  rfl

/-! ### The claims -/

/-- Claim C1: for every subset collection of length `L ≥ 1`, `brute_force`
iterates `n` from `0` to `2 ^ L - 1`, computes `bitfield n L`, evaluates
`check_disjoint` on it, and returns the maximum count of 1-bits over all
selection vectors for which `check_disjoint` returns true (rejected
candidates contribute `⊥`, the loop's initial `-inf`). -/
theorem C1_brute_force_is_max (S : List (List ℕ)) (hS : 1 ≤ S.length) :
    brute_force S = maxOver (List.range (2 ^ S.length))
      (fun n => if check_disjoint (bitfield n S.length) S
        then ((countNonzero (bitfield n S.length) : ℕ) : WithBot ℕ) else ⊥) := by
  rw [brute_force, bruteForceWith_eq_maxOver]
  rfl

/-- Witness for C1 at the collection `[[4, 5], [4]]`. -/
theorem C1_witness : 1 ≤ ([[4, 5], [4]] : List (List ℕ)).length ∧
    brute_force [[4, 5], [4]] =
      maxOver (List.range (2 ^ ([[4, 5], [4]] : List (List ℕ)).length))
        (fun n => if check_disjoint (bitfield n ([[4, 5], [4]] : List (List ℕ)).length)
            [[4, 5], [4]]
          then ((countNonzero (bitfield n ([[4, 5], [4]] : List (List ℕ)).length) : ℕ) :
            WithBot ℕ) else ⊥) :=
  ⟨by decide, C1_brute_force_is_max [[4, 5], [4]] (by decide)⟩

/-- Claim C2: for the concrete collection `[[4, 5], [4], [5]]`, the
selection vector `[0, 1, 1]` is accepted by `check_disjoint`, every
selection vector selecting position 0 together with position 1 or 2 is
rejected, and `brute_force` returns maximum packing size 2. -/
theorem C2_concrete :
    check_disjoint [0, 1, 1] [[4, 5], [4], [5]] = true ∧
    (∀ n, n < 8 →
      ((bitfield n 3).getD 0 0 = 1 ∧
        ((bitfield n 3).getD 1 0 = 1 ∨ (bitfield n 3).getD 2 0 = 1)) →
      check_disjoint (bitfield n 3) [[4, 5], [4], [5]] = false) ∧
    brute_force [[4, 5], [4], [5]] = ((2 : ℕ) : WithBot ℕ) := by
  decide

/-- Claim C3: for every `L ≥ 1` and `0 ≤ n < 2 ^ L`, `bitfield n L` has
exactly `L` digits, each 0 or 1, and reading them most-significant bit
first yields `n` — i.e. it is the binary representation of `n` zero-padded
on the left to length `L`. -/
theorem C3_bitfield_spec (n L : ℕ) (hL : 1 ≤ L) (hn : n < 2 ^ L) :
    (bitfield n L).length = L ∧ (∀ d ∈ bitfield n L, d = 0 ∨ d = 1) ∧
      fromBitsMSB (bitfield n L) = n :=
  ⟨bitfield_length n L hL hn, bitfield_mem n L, bitfield_value n L⟩

/-- Witness for C3 at `n = 5`, `L = 4`. -/
theorem C3_witness : 1 ≤ 4 ∧ 5 < 2 ^ 4 ∧
    ((bitfield 5 4).length = 4 ∧ (∀ d ∈ bitfield 5 4, d = 0 ∨ d = 1) ∧
      fromBitsMSB (bitfield 5 4) = 5) :=
  ⟨by decide, by decide, C3_bitfield_spec 5 4 (by decide) (by decide)⟩

/-- Claim C4 (refuted): the claim says that for `n ≥ 2 ^ L`, `bitfield`
fails with an InvalidArgument error rather than returning a value.  In
fact `np.binary_repr` only pads, never truncates or raises for
non-negative input: at `n = 2`, `L = 1` the code returns the two-digit
value `[1, 0]` instead of failing. -/
theorem C4_counterexample : bitfield 2 1 = [1, 0] ∧ 1 < (bitfield 2 1).length := by
  decide

/-- Claim C4 as amended: for every `n ≥ 2 ^ L`, `bitfield n L` does not
fail; it returns the full (unpadded) binary representation of `n`, whose
length exceeds `L` and whose most-significant-bit-first value is `n`. -/
theorem C4_amended_no_failure (n L : ℕ) (h : 2 ^ L ≤ n) :
    L < (bitfield n L).length ∧ fromBitsMSB (bitfield n L) = n :=
  ⟨bitfield_length_gt n L h, bitfield_value n L⟩

/-- Witness for the amended C4 at `n = 5`, `L = 2`. -/
theorem C4_witness : 2 ^ 2 ≤ 5 ∧
    (2 < (bitfield 5 2).length ∧ fromBitsMSB (bitfield 5 2) = 5) :=
  ⟨by decide, C4_amended_no_failure 5 2 (by decide)⟩

/-- Claim C5: for every collection with `L ≥ 1` subsets, `check_disjoint`
accepts the all-zero selection vector (the empty selection is a valid
packing of size 0), and consequently `brute_force` returns a value that is
at least 0. -/
theorem C5_empty_selection (S : List (List ℕ)) (hS : 1 ≤ S.length) :
    check_disjoint (List.replicate S.length 0) S = true ∧
      ((0 : ℕ) : WithBot ℕ) ≤ brute_force S :=
  ⟨check_disjoint_replicate_zero S.length S, zero_le_brute_force S hS⟩

/-- Witness for C5 at the collection `[[1, 2], [2, 3]]`. -/
theorem C5_witness : 1 ≤ ([[1, 2], [2, 3]] : List (List ℕ)).length ∧
    (check_disjoint (List.replicate ([[1, 2], [2, 3]] : List (List ℕ)).length 0)
        [[1, 2], [2, 3]] = true ∧
      ((0 : ℕ) : WithBot ℕ) ≤ brute_force [[1, 2], [2, 3]]) :=
  ⟨by decide, C5_empty_selection [[1, 2], [2, 3]] (by decide)⟩

/-- Claim C6: appending a subset that is disjoint from every subset
already in the collection does not decrease the value returned by
`brute_force`. -/
theorem C6_append_mono (S : List (List ℕ)) (T : List ℕ)
    (hT : ∀ U ∈ S, disjointB U T = true) :
    brute_force S ≤ brute_force (S ++ [T]) := by
  match S with
  | [] =>
    have h0 : brute_force ([] : List (List ℕ)) = ((0 : ℕ) : WithBot ℕ) := by decide
    rw [h0]
    simpa using zero_le_brute_force [T] (by simp)
  | A :: S₀ =>
    rw [brute_force_eq_packMax (A :: S₀) (by simp),
      brute_force_eq_packMax ((A :: S₀) ++ [T]) (by simp)]
    exact packMax_append (A :: S₀) [T]

/-- Witness for C6: appending `[3]` to `[[1, 2]]`. -/
theorem C6_witness : (∀ U ∈ ([[1, 2]] : List (List ℕ)), disjointB U [3] = true) ∧
    brute_force [[1, 2]] ≤ brute_force ([[1, 2]] ++ [[3]]) :=
  ⟨by decide, C6_append_mono [[1, 2]] [3] (by decide)⟩

/-- Claim C7: `brute_force` returns the same maximum packing size on any
permutation of the subset collection. -/
theorem C7_perm_invariant (S S' : List (List ℕ)) (h : List.Perm S S') :
    brute_force S = brute_force S' := by
  match S with
  | [] =>
    rw [List.Perm.eq_nil h.symm]
  | A :: S₀ =>
    have h1 : 1 ≤ (A :: S₀).length := by simp
    have h2 : 1 ≤ S'.length := by rw [← h.length_eq]; simp
    rw [brute_force_eq_packMax (A :: S₀) h1, brute_force_eq_packMax S' h2]
    exact packMax_perm h

/-- Witness for C7: a rotation of the notebook's collection. -/
theorem C7_witness : List.Perm ([[4, 5], [4], [5]] : List (List ℕ)) [[4], [5], [4, 5]] ∧
    brute_force [[4, 5], [4], [5]] = brute_force [[4], [5], [4, 5]] :=
  ⟨by decide, C7_perm_invariant [[4, 5], [4], [5]] [[4], [5], [4, 5]] (by decide)⟩

/-- Claim C8: with `n = 0` and `L = 0` (the empty collection),
`np.binary_repr(0, 0)` yields the single digit "0", so `bitfield 0 0` is
the one-element sequence `[0]` — length 1, not length `L = 0`. -/
theorem C8_bitfield_zero_zero : bitfield 0 0 = [0] ∧ (bitfield 0 0).length = 1 := by
  decide

/-- Claim C9: if the check rejects every one of the `2 ^ L` candidate
selection vectors, the brute-force loop returns its initial value
`max_v = -np.inf` (here `⊥`), a non-integer sentinel.  Stated for the
loop `bruteForceWith` with the check function as a parameter
(`brute_force` is `bruteForceWith check_disjoint`, for which the
antecedent never holds since the all-zero vector is always accepted). -/
theorem C9_all_rejected_bot (cd : List ℕ → List (List ℕ) → Bool) (S : List (List ℕ))
    (h : ∀ n, n < 2 ^ S.length → cd (bitfield n S.length) S = false) :
    bruteForceWith cd S = ⊥ := by
  rw [bruteForceWith_eq_maxOver]
  refine le_antisymm (maxOver_le _ ?_) bot_le
  intro n hn
  unfold acceptWith
  rw [h n (List.mem_range.mp hn)]
  simp

/-- Witness for C9: a check that rejects everything on `[[7]]`. -/
theorem C9_witness : (∀ n, n < 2 ^ ([[7]] : List (List ℕ)).length →
      (fun (_ : List ℕ) (_ : List (List ℕ)) => false)
        (bitfield n ([[7]] : List (List ℕ)).length) [[7]] = false) ∧
    bruteForceWith (fun _ _ => false) [[7]] = ⊥ :=
  ⟨fun _ _ => rfl, C9_all_rejected_bot (fun _ _ => false) [[7]] (fun _ _ => rfl)⟩

/-- Claim C10: `brute_force` does not modify the global `list_of_subsets`
it reads: after a call the state is unchanged, the returned value is a
pure function of that state, and a second call on the resulting state
returns the same value. -/
theorem C10_no_mutation (st : List (List ℕ)) :
    (bruteForceGlobal st).1 = st ∧
    (bruteForceGlobal st).2 = brute_force st ∧
    (bruteForceGlobal ((bruteForceGlobal st).1)).2 = (bruteForceGlobal st).2 := by
  simp [bruteForceGlobal_eq]

example : bitfield 5 4 = [0, 1, 0, 1] := by decide
example : bitfield 0 0 = [0] := by decide
example : bitfield 2 1 = [1, 0] := by decide
example : brute_force [[4, 5], [4], [5]] = ((2 : ℕ) : WithBot ℕ) := by decide
example : brute_force [] = ((0 : ℕ) : WithBot ℕ) := by decide
example : check_disjoint [0, 1, 1] [[4, 5], [4], [5]] = true := by decide
example : check_disjoint [1, 1, 0] [[4, 5], [4], [5]] = false := by decide
